import Mathlib

/-!
# Verification of the data cleaning + dual-database pipeline

Shallow embedding of the cleaning, persistence, fetching and analysis
components of the repository.  Pandas frames are modelled as lists of
columns; a numeric cell is `Option ℚ` (`none` is NaN/null), a categorical
cell is `Option String`.  Machine floats are modelled by exact rationals;
fallible code is modelled in `Except String`.
-/

namespace Pipeline

/-- Sort a list of rationals ascending (the order statistics used by
`Series.quantile` / `Series.median`). -/
def sortQ (l : List ℚ) : List ℚ := List.insertionSort (· ≤ ·) l

/-- `l[i]` with a default, as plain structural recursion. -/
def nthD (l : List ℚ) (i : ℕ) (d : ℚ) : ℚ :=
  match l, i with
  | [], _ => d
  | x :: _, 0 => x
  | _ :: xs, n + 1 => nthD xs n d

/-- Linear-interpolation `a/b`-quantile of a sorted, nonempty list,
following `numpy.percentile` / `Series.quantile(interpolation='linear')`:
`h = (a/b)*(n-1)`, `i = ⌊h⌋`, result `x_i + (h-i)*(x_{i+1} - x_i)`.
The floor index is computed by natural division; `quantile_idx_le` below
proves the floor characterisation `(i : ℚ) ≤ h < i + 1`. -/
def quantileSorted (xs : List ℚ) (a b : ℕ) : ℚ :=
  let n := xs.length
  let i : ℕ := a * (n - 1) / b
  let h : ℚ := ((a * (n - 1) : ℕ) : ℚ) / (b : ℚ)
  let x0 := nthD xs i 0
  let x1 := nthD xs (i + 1) x0
  x0 + (h - (i : ℚ)) * (x1 - x0)

/-- A numeric column: list of cells, `none` being NaN. -/
abbrev NumCol := List (Option ℚ)

/-- A categorical column: list of cells, `none` being NaN. -/
abbrev CatCol := List (Option String)

/-- `Series.quantile(a/b)`: drop nulls, sort, interpolate; NaN (`none`) when
no non-null value exists. -/
def quantile? (c : NumCol) (a b : ℕ) : Option ℚ :=
  let v := sortQ (c.filterMap id)
  if v.isEmpty then none else some (quantileSorted v a b)

/-- `Series.median()` = the interpolated `1/2`-quantile over non-null values. -/
def median? (c : NumCol) : Option ℚ := quantile? c 1 2

/-- Round half to even (the rounding used by `numpy.round`). -/
def rhe (r : ℚ) : ℤ :=
  let n : ℤ := ⌊r⌋
  let f : ℚ := r - (n : ℚ)
  if f < 1/2 then n
  else if 1/2 < f then n + 1
  else if 2 ∣ n then n else n + 1

/-- `round(x, 4)`: round to four decimal places, half to even. -/
def round4 (x : ℚ) : ℚ := ((rhe (x * 10000) : ℚ)) / 10000

/-- `df[col].fillna(df[col].median())` on one numeric column: when the
median is computable every null is replaced by it, otherwise (all-null
column) `fillna(NaN)` changes nothing. -/
def imputeCol (c : NumCol) : NumCol :=
  match median? c with
  | none => c
  | some m => c.map (fun o => some (o.getD m))

/-- `np.clip`-style clip of one value: `min (max v lower) upper`. -/
def clipVal (lower upper v : ℚ) : ℚ := min (max v lower) upper

/-- `DataCleaner._handle_outliers` on one numeric column: compute
`Q1`,`Q3` of the current values, clip everything to
`[Q1 - 1.5*IQR, Q3 + 1.5*IQR]`; when the quantiles are NaN (all-null
column) `clip` with NaN bounds changes nothing. -/
def clipCol (c : NumCol) : NumCol :=
  match quantile? c 1 4, quantile? c 3 4 with
  | some q1, some q3 =>
      let iqr := q3 - q1
      let lower := q1 - 3/2 * iqr
      let upper := q3 + 3/2 * iqr
      c.map (Option.map (clipVal lower upper))
  | _, _ => c

/-- `DataCleaner._standardize_formats` on one numeric column:
`df[col].round(4)`. -/
def roundCol (c : NumCol) : NumCol := c.map (Option.map round4)

/-- A generic tabular frame as seen by the economic `DataCleaner`:
the numeric (`select_dtypes(include=[np.number])`) columns and the
remaining, categorical columns.  All columns have the same number of rows
in a real frame; none of the proofs below need that invariant. -/
structure Frame where
  num : List NumCol
  cat : List CatCol
  deriving DecidableEq

/-- First row of `df[cat_cols].mode()` for one column: the most frequent
non-null value, ties broken by the smaller value (pandas sorts the modes
ascending); `none` when the column has no non-null value. -/
def modeFirst (c : CatCol) : Option String :=
  let v := c.filterMap id
  v.foldl
    (fun acc s =>
      match acc with
      | none => some s
      | some t =>
          if v.count s > v.count t ∨ (v.count s = v.count t ∧ s < t) then some s
          else some t)
    none

/-- `df[col].fillna(mode_row[col])` on one categorical column: columns whose
mode row entry is NaN (no computable mode) are unchanged. -/
def fillCat (c : CatCol) : CatCol :=
  match modeFirst c with
  | none => c
  | some m => c.map (fun o => some (o.getD m))

/-- Whether `df[categorical_columns].mode()` has at least one row, i.e.
whether `.iloc[0]` succeeds: some categorical column has a computable mode. -/
def catsAvail (cats : List CatCol) : Bool :=
  cats.any (fun c => (modeFirst c).isSome)

/-- The `try`-block of `DataCleaner._handle_missing_values`: numeric columns
are median-imputed in place, then `df[categorical_columns].mode().iloc[0]`
raises `IndexError` when no categorical column has a mode; otherwise the
categorical columns are mode-imputed. -/
def handleMissingValuesBody (f : Frame) : Except String Frame :=
  let f1 : Frame := { f with num := f.num.map imputeCol }
  if catsAvail f.cat then Except.ok { f1 with cat := f1.cat.map fillCat }
  else Except.error "IndexError: single positional indexer is out-of-bounds"

/-- `DataCleaner._handle_missing_values` with its `except` handler: on the
`IndexError` it returns `df` — which at that point already carries the
in-place numeric imputation. -/
def handleMissingValues (f : Frame) : Frame :=
  match handleMissingValuesBody f with
  | Except.ok r => r
  | Except.error _ => { f with num := f.num.map imputeCol }

/-- `DataCleaner._handle_outliers`: IQR-clip every numeric column. -/
def handleOutliers (f : Frame) : Frame :=
  { f with num := f.num.map clipCol }

/-- `DataCleaner._standardize_formats`: round every numeric column to four
decimals (datetime columns are re-parsed to themselves, a no-op). -/
def standardizeFormats (f : Frame) : Frame :=
  { f with num := f.num.map roundCol }

/-- `DataCleaner.clean_data` (economic_analysis copy): missing values, then
outliers, then format standardization. -/
def cleanData (f : Frame) : Frame :=
  standardizeFormats (handleOutliers (handleMissingValues f))

/-- `DataCleaner.clean_data` in the exception monad: its own `try` wraps the
three helpers, each of which already catches internally, so no exception
ever reaches the outer handler. -/
def cleanDataE (f : Frame) : Except String Frame :=
  Except.ok (standardizeFormats (handleOutliers (handleMissingValues f)))

/-- The whole numeric pipeline on one column. -/
def cleanNumCol (c : NumCol) : NumCol := roundCol (clipCol (imputeCol c))

/-- The whole pipeline on the categorical columns. -/
def catStep (cats : List CatCol) : List CatCol :=
  if catsAvail cats then cats.map fillCat else cats

/-- A raw cell of the education frame: a float, a non-numeric string, or
null/NaN.  A numeric string coerces like a float, so it is modelled as
`num`. -/
inductive Cell where
  | num (q : ℚ)
  | str (s : String)
  | null
  deriving DecidableEq

/-- `pd.isna` on a cell. -/
def Cell.isNull : Cell → Bool
  | .null => true
  | _ => false

/-- `pd.to_numeric(errors='coerce')` on a cell: non-numeric data becomes NaN. -/
def coerceNum : Cell → Option ℚ
  | .num q => some q
  | _ => none

/-- `.astype(int)` on a float: truncation toward zero. -/
def truncQ (q : ℚ) : ℤ := Int.tdiv q.num (q.den : ℤ)

/-- A raw input row of the education-investment frame. -/
structure EduRow where
  geo : String
  year : Cell
  value : Cell
  deriving DecidableEq

/-- The education frame: rows plus the presence of the three columns the
cleaner accesses (`value`, `year`, `geo_time_period`); accessing a missing
column raises `KeyError`. -/
structure EduFrame where
  rows : List EduRow
  hasValue : Bool
  hasYear : Bool
  hasGeo : Bool
  deriving DecidableEq

/-- A row after value coercion. -/
structure EduRow2 where
  geo : String
  year : Cell
  value : Option ℚ
  deriving DecidableEq

/-- A fully cleaned education row. -/
structure EduCleanRow where
  geo : String
  year : ℤ
  value : ℚ
  deriving DecidableEq

/-- The `k = 3` IQR bounds computed on the coerced `value` column
(`quantile` skips NaN); NaN bounds when no numeric value exists. -/
def eduBounds (rows : List EduRow2) : Option (ℚ × ℚ) :=
  let vs := rows.filterMap (fun r => r.value)
  if vs.isEmpty then none
  else
    let s := sortQ vs
    let q1 := quantileSorted s 1 4
    let q3 := quantileSorted s 3 4
    some (q1 - 3 * (q3 - q1), q3 + 3 * (q3 - q1))

/-- `sort_values(['year', 'geo_time_period'])` order. -/
def eduLe (r s : EduCleanRow) : Prop :=
  r.year < s.year ∨ (r.year = s.year ∧ r.geo ≤ s.geo)

instance : DecidableRel eduLe := fun r s => by
  unfold eduLe; infer_instance

/-- The rows after `dropna(subset=['value'])` and
`to_numeric(cleaned_data['value'], errors='coerce')`. -/
def eduCoerced (f : EduFrame) : List EduRow2 :=
  (f.rows.filter (fun r => !r.value.isNull)).map
    (fun r => EduRow2.mk r.geo r.year (coerceNum r.value))

/-- `DataCleaner.clean_education_data` (education_analysis copy):
drop null values, coerce `value`, *filter out* rows outside the
`[Q1 - 3*IQR, Q3 + 3*IQR]` bounds (NaN comparisons are false, so rows with
non-numeric values are dropped too, and with NaN bounds everything is
dropped), coerce `year`, drop null years, truncate years to int, sort by
`(year, geo_time_period)`.  Any exception — here a `KeyError` for a missing
column — is logged and re-raised. -/
def cleanEducationData (f : EduFrame) : Except String (List EduCleanRow) :=
  if !f.hasValue then Except.error "KeyError: value"
  else
    let rows2 := eduCoerced f
    let rows3 :=
      match eduBounds rows2 with
      | none => ([] : List EduRow2)
      | some (lo, hi) =>
          rows2.filter (fun r =>
            match r.value with
            | some v => decide (lo ≤ v ∧ v ≤ hi)
            | none => false)
    if !f.hasYear then Except.error "KeyError: year"
    else
      let rows4 := rows3.filterMap (fun r =>
        match coerceNum r.year, r.value with
        | some y, some v => some (EduCleanRow.mk r.geo (truncQ y) v)
        | _, _ => none)
      if !f.hasGeo then Except.error "KeyError: geo_time_period"
      else Except.ok (List.insertionSort eduLe rows4)

/-- `Except.isOk`. -/
def exceptOk {ε α : Type} : Except ε α → Bool
  | Except.ok _ => true
  | Except.error _ => false

/-- Whether every value of a column already lies inside the IQR bounds that
a clip pass would compute on it (vacuously true when the bounds are NaN). -/
def inIQRBoundsB (c : NumCol) : Bool :=
  match quantile? c 1 4, quantile? c 3 4 with
  | some q1, some q3 =>
      (c.filterMap id).all (fun v =>
        decide (q1 - 3/2 * (q3 - q1) ≤ v) && decide (v ≤ q3 + 3/2 * (q3 - q1)))
  | _, _ => true

/-- Propositional form of `inIQRBoundsB`. -/
def inIQRBounds (c : NumCol) : Prop := inIQRBoundsB c = true

instance (c : NumCol) : Decidable (inIQRBounds c) :=
  inferInstanceAs (Decidable (inIQRBoundsB c = true))

/-- A MongoDB field value (timestamps as an abstract tick count; the
`metadata` sub-document is flattened to its source tag). -/
inductive MVal where
  | num (q : ℚ)
  | str (s : String)
  | time (t : ℕ)
  deriving DecidableEq

/-- A document / Python dict: ordered association list of fields. -/
abbrev Doc := List (String × MVal)

/-- `'k' in doc`. -/
def hasField (d : Doc) (k : String) : Bool := d.any (fun p => p.1 == k)

/-- `doc.get(k)`: the first (in a dict, only) binding of the key. -/
def getField : Doc → String → Option MVal
  | [], _ => none
  | p :: ps, k => if p.1 == k then some p.2 else getField ps k

/-- `doc[k] = v`: replace in place if present, else append (Python dict
insertion order). -/
def setField (d : Doc) (k : String) (v : MVal) : Doc :=
  if hasField d k then d.map (fun p => if p.1 == k then (k, v) else p)
  else d ++ [(k, v)]

/-- The timestamp loop of `DatabaseManager.save_to_mongo`:
`if 'created_at' not in doc: doc['created_at'] = datetime.now()`,
mutating the caller's dict. -/
def stampCreated (now : ℕ) (d : Doc) : Doc :=
  if hasField d "created_at" then d else d ++ [("created_at", MVal.time now)]

/-- `DatabaseManager.save_to_mongo` (both copies): stamp `created_at` on
each dict lacking it, then `insert_many` — a plain append to the
collection.  Returns the new collection state and the (mutated) document
list as the caller now sees it. -/
def saveToMongo (store : List Doc) (docs : List Doc) (now : ℕ) :
    List Doc × List Doc :=
  let stamped := docs.map (stampCreated now)
  (store ++ stamped, stamped)

/-- A preprocessed record of the Mongo import script. -/
structure Rec where
  country : String
  year : ℤ
  value : ℚ
  source : String
  deriving DecidableEq

/-- The `mongo_doc` built by `store_in_mongodb`: natural key, value,
metadata and an `updated_at` stamped on every write. -/
def recDoc (now : ℕ) (r : Rec) : Doc :=
  [("country", MVal.str r.country), ("year", MVal.num (r.year : ℚ)),
   ("value", MVal.num r.value), ("metadata", MVal.str r.source),
   ("updated_at", MVal.time now)]

/-- Whether a stored document matches the `{'country': c, 'year': y}` filter. -/
def matchesKey (d : Doc) (c : String) (y : ℤ) : Bool :=
  (getField d "country" == some (MVal.str c)) &&
    (getField d "year" == some (MVal.num (y : ℚ)))

/-- `$set` semantics: write every field of the update into the document. -/
def applySet (d upd : Doc) : Doc :=
  upd.foldl (fun acc p => setField acc p.1 p.2) d

/-- `UpdateOne({'country': c, 'year': y}, {'$set': doc}, upsert=True)`
against a list-modelled collection: update the first matching document,
or insert the new document when none matches. -/
def upsertOne (c : String) (y : ℤ) (doc : Doc) : List Doc → List Doc
  | [] => [doc]
  | d :: ds =>
      if matchesKey d c y then applySet d doc :: ds
      else d :: upsertOne c y doc ds

/-- One record of `store_in_mongodb`'s bulk write. -/
def storeRecord (store : List Doc) (r : Rec) (now : ℕ) : List Doc :=
  upsertOne r.country r.year (recDoc now r) store

/-- Number of stored documents with the given natural key. -/
def countKey (store : List Doc) (c : String) (y : ℤ) : ℕ :=
  (store.filter (fun d => matchesKey d c y)).length

/-- `DatabaseManager.save_to_postgres` batching (education_analysis copy):
`num_batches = (n + batch_size - 1) // batch_size` slices
`data.iloc[i*b : min((i+1)*b, n)]` appended in order. -/
def batches {α : Type} (rows : List α) (b : ℕ) : List (List α) :=
  (List.range ((rows.length + b - 1) / b)).map
    (fun i => ((rows.drop (i * b)).take (min ((i + 1) * b) rows.length - i * b)))

/-- A raw row of the Eurostat education-investment dataset after
`reset_index`/`rename`. -/
structure EduInvRow where
  country_code : String
  year : ℤ
  education_investment : ℚ
  deriving DecidableEq

/-- The same row with the metadata `get_education_investment_data` adds. -/
structure EduInvProc where
  country_code : String
  year : ℤ
  education_investment : ℚ
  collected_at : ℕ
  source : String
  deriving DecidableEq

/-- The processing applied to a successful Eurostat response: tag every row
with `collected_at` and `source = 'Eurostat'`. -/
def processEduInv (now : ℕ) (rows : List EduInvRow) : List EduInvProc :=
  rows.map (fun r => ⟨r.country_code, r.year, r.education_investment, now, "Eurostat"⟩)

/-- `EurostatCollector.get_education_investment_data`, parameterised by the
cache lookup and the external call's outcome: a cache hit is returned; on a
miss a successful response is processed, while a failure is logged and
**re-raised**. -/
def getEducationInvestmentData (cache : Option (List EduInvProc))
    (ext : Except String (List EduInvRow)) (now : ℕ) :
    Except String (List EduInvProc) :=
  match cache with
  | some c => Except.ok c
  | none =>
      match ext with
      | Except.ok d => Except.ok (processEduInv now d)
      | Except.error e => Except.error e

/-- One World-Bank indicator frame after the melt/rename: indicator name
plus `(country_code, year, value)` rows. -/
structure IndFrame where
  name : String
  rows : List (String × ℤ × ℚ)
  deriving DecidableEq

/-- A merged wide row: natural key plus the collected indicator values. -/
abbrev EconRow := (String × ℤ) × List (String × ℚ)

def upsertEcon (acc : List EconRow) (key : String × ℤ) (nv : String × ℚ) :
    List EconRow :=
  match acc with
  | [] => [(key, [nv])]
  | (k, vs) :: rest =>
      if k = key then (k, vs ++ [nv]) :: rest
      else (k, vs) :: upsertEcon rest key nv

/-- One step of the chained `pd.merge(..., how='outer')` on
`['country_code', 'year']`. -/
def mergeInd (acc : List EconRow) (df : IndFrame) : List EconRow :=
  df.rows.foldl (fun a r => upsertEcon a (r.1, r.2.1) (df.name, r.2.2)) acc

/-- The merged result with its metadata columns. -/
structure EconResult where
  rows : List EconRow
  collected_at : ℕ
  source : String
  deriving DecidableEq

/-- `EurostatCollector.get_economic_indicators`: cache hit returned;
otherwise each indicator is fetched, failures are logged and skipped
(`continue`), no collected data yields an empty frame, and the outer
handler degrades any remaining failure to an empty frame — the operation
never raises. -/
def getEconomicIndicators (cache : Option EconResult)
    (ext : List (Except String IndFrame)) (now : ℕ) : Except String EconResult :=
  match cache with
  | some c => Except.ok c
  | none =>
      let dfs := ext.filterMap (fun e =>
        match e with
        | Except.ok d => some d
        | Except.error _ => none)
      if dfs.isEmpty then Except.ok ⟨[], now, "World Bank"⟩
      else Except.ok ⟨dfs.foldl mergeInd [], now, "World Bank"⟩

/-- The Postgres-relevant environment values; `none` models an unset (or
empty, hence falsy) variable. -/
structure PGConfig where
  host : Option String
  db : Option String
  user : Option String
  password : Option String
  deriving DecidableEq

/-- Connection state of one `DatabaseManager`: engines and clients carry
fresh ids so that replacing a client is observable. -/
structure ConnSt where
  pgEngine : Option ℕ
  pgConn : Option ℕ
  mongoClient : Option ℕ
  mongoDbName : Option String
  nextId : ℕ
  deriving DecidableEq

/-- `not all([host, db, user, password])`. -/
def pgMissing (cfg : PGConfig) : Bool :=
  cfg.host.isNone || cfg.db.isNone || cfg.user.isNone || cfg.password.isNone

/-- `DatabaseManager.connect_postgres` (ProgrammingForAI-taba copy):
validate the required variables — raising `ValueError` if any is missing —
then connect only when no connection exists yet. -/
def pfaiConnectPostgres (cfg : PGConfig) (s : ConnSt) : Except String ConnSt :=
  if pgMissing cfg then
    Except.error "Missing required environment variables"
  else if s.pgConn.isNone then
    Except.ok { s with
      pgEngine := some s.nextId, pgConn := some (s.nextId + 1),
      nextId := s.nextId + 2 }
  else Except.ok s

/-- `DatabaseManager.connect_mongo` (education_analysis copy): every call
constructs a fresh `MongoClient` from the (defaulted, hence never missing)
URI and installs it, discarding whatever client was there. -/
def eduConnectMongo (dbName : String) (s : ConnSt) : ConnSt :=
  { s with
    mongoClient := some s.nextId, mongoDbName := some dbName,
    nextId := s.nextId + 1 }

/-- Client handles held by the state were allocated before `nextId`. -/
def ConnSt.wf (s : ConnSt) : Prop :=
  ∀ k, s.mongoClient = some k → k < s.nextId

def meanQ (l : List ℚ) : ℚ := l.sum / l.length

/-- Sum of squared deviations of a column (`ssqdm` of pandas `nancorr`). -/
def ssd (l : List ℚ) : ℚ := (l.map (fun x => (x - meanQ l) ^ 2)).sum

/-- Sum of products of deviations of two columns (`covxy` of `nancorr`). -/
def spd (xs ys : List ℚ) : ℚ :=
  (List.zipWith (fun x y => (x - meanQ xs) * (y - meanQ ys)) xs ys).sum

/-- One entry of `df[target_cols].corr()`: Pearson coefficient, or NaN
(`none`) when the divisor is zero (a constant column).  `Real.sqrt` makes
the definition noncomputable; the decidable facts needed to instantiate it
(`ssd ≠ 0`) live in `ℚ`. -/
noncomputable def corrEntry (xs ys : List ℚ) : Option ℝ :=
  if ssd xs = 0 ∨ ssd ys = 0 then none
  else some ((spd xs ys : ℝ) /
    (Real.sqrt ((ssd xs : ℚ) : ℝ) * Real.sqrt ((ssd ys : ℚ) : ℝ)))

/-- The full correlation matrix of `EducationAnalyzer.correlation_analysis`. -/
noncomputable def correlationMatrix (cols : List (List ℚ)) :
    List (List (Option ℝ)) :=
  cols.map (fun x => cols.map (fun y => corrEntry x y))

/-- Matrix entry access with NaN default. -/
noncomputable def entryAt (M : List (List (Option ℝ))) (i j : ℕ) : Option ℝ :=
  (M.getD i []).getD j none

/-! Concrete inputs used by the claim counterexamples and witnesses. -/

/-- An education frame without a `value` column. -/
def eduNoValueFrame : EduFrame := ⟨[], false, true, true⟩

/-- The numeric column `[0, 0, 0, 0.0001]`. -/
def exCol3 : NumCol := [some 0, some 0, some 0, some (1/10000)]

/-- A frame with the single numeric column `[0, 100, 100, 100]`. -/
def exFrame4 : Frame := ⟨[[some 0, some 100, some 100, some 100]], []⟩

/-- A frame with the single numeric column `[0, 1, 2, 3]`. -/
def wFrame4 : Frame := ⟨[[some 0, some 1, some 2, some 3]], []⟩

/-- A frame with one numeric and one categorical column, each with a null. -/
def wFrame5 : Frame := ⟨[[some 1, none]], [[some "a", none]]⟩

/-- A document with a `(country, year)` natural key and no `created_at`. -/
def d0 : Doc :=
  [("country", MVal.str "DE"), ("year", MVal.num 2020), ("value", MVal.num 1)]

/-- A document that already carries `created_at`. -/
def dC : Doc :=
  [("country", MVal.str "FR"), ("created_at", MVal.time 3), ("value", MVal.num 4)]

/-- Two preprocessed records with the same `(DE, 2020)` key. -/
def rec1 : Rec := ⟨"DE", 2020, 1, "World Bank"⟩

def rec2 : Rec := ⟨"DE", 2020, 2, "World Bank"⟩

/-- A fresh connection state. -/
def s0 : ConnSt := ⟨none, none, none, none, 0⟩

/-- The state after one successful Postgres connect from `s0`. -/
def s1 : ConnSt := ⟨some 0, some 1, none, none, 2⟩

/-- A complete Postgres configuration. -/
def cfg0 : PGConfig := ⟨some "h", some "edu_db", some "u", some "pw"⟩

/-- Two indicator columns, the first constant. -/
def cCols8 : List (List ℚ) := [[1, 1, 1], [1, 2, 3]]

/-- Two non-constant indicator columns. -/
def wCols8 : List (List ℚ) := [[1, 2, 3], [2, 4, 8]]

theorem cleanData_num (f : Frame) : (cleanData f).num = f.num.map cleanNumCol := by
  simp only [cleanData, standardizeFormats, handleOutliers, handleMissingValues,
    handleMissingValuesBody]
  by_cases h : catsAvail f.cat <;>
    simp [h, Function.comp, cleanNumCol]

theorem cleanData_cat (f : Frame) : (cleanData f).cat = catStep f.cat := by
  simp [cleanData, standardizeFormats, handleOutliers, handleMissingValues,
    handleMissingValuesBody, catStep]
  by_cases h : catsAvail f.cat <;> simp [h]

theorem sortQ_sorted (l : List ℚ) : (sortQ l).Sorted (· ≤ ·) :=
  List.sorted_insertionSort _ l

theorem sortQ_perm (l : List ℚ) : (sortQ l).Perm l :=
  List.perm_insertionSort _ l

theorem nthD_eq_get (xs : List ℚ) (d : ℚ) :
    ∀ (i : ℕ) (h : i < xs.length), nthD xs i d = xs.get ⟨i, h⟩ := by
  induction xs with
  | nil => intro i h; simp at h
  | cons x xs ih =>
      intro i h
      cases i with
      | zero => rfl
      | succ n => simpa [nthD] using ih n (by simpa using h)

theorem nthD_mono (xs : List ℚ) (hs : xs.Sorted (· ≤ ·)) (d : ℚ) {i j : ℕ}
    (hij : i ≤ j) (hj : j < xs.length) : nthD xs i d ≤ nthD xs j d := by
  have hi : i < xs.length := lt_of_le_of_lt hij hj
  rw [nthD_eq_get xs d i hi, nthD_eq_get xs d j hj]
  exact hs.rel_get_of_le (by exact_mod_cast hij)

theorem nthD_mem (xs : List ℚ) (d : ℚ) (i : ℕ) (h : i < xs.length) :
    nthD xs i d ∈ xs := by
  rw [nthD_eq_get xs d i h]; exact List.get_mem xs i h

theorem nthD_of_le (xs : List ℚ) (d : ℚ) :
    ∀ i : ℕ, xs.length ≤ i → nthD xs i d = d := by
  induction xs with
  | nil => intro i _; rfl
  | cons x xs ih =>
      intro i h
      cases i with
      | zero => simp at h
      | succ n => exact ih n (by simpa using h)

/-- The quantile index really is the floor of `h = (a/b)*(n-1)`:
`(i : ℚ) ≤ h < i + 1`. -/
theorem quantile_idx_le (a b m : ℕ) (hb : 0 < b) :
    ((a * m / b : ℕ) : ℚ) ≤ ((a * m : ℕ) : ℚ) / (b : ℚ) ∧
      ((a * m : ℕ) : ℚ) / (b : ℚ) < ((a * m / b : ℕ) : ℚ) + 1 := by
  have hb' : (0 : ℚ) < (b : ℚ) := by exact_mod_cast hb
  constructor
  · rw [le_div_iff₀ hb']
    exact_mod_cast Nat.div_mul_le_self (a * m) b
  · rw [div_lt_iff₀ hb']
    have : a * m < (a * m / b + 1) * b := by
      have h2 := Nat.mod_lt (a * m) hb
      calc a * m = b * (a * m / b) + a * m % b := (Nat.div_add_mod _ _).symm
      _ < b * (a * m / b) + b := by omega
      _ = (a * m / b + 1) * b := by ring
    calc ((a * m : ℕ) : ℚ) < (((a * m / b + 1) * b : ℕ) : ℚ) := by exact_mod_cast this
    _ = (((a * m / b : ℕ) : ℚ) + 1) * (b : ℚ) := by push_cast; ring

theorem quantile_idx_le_m (a b m : ℕ) (hb : 0 < b) (hab : a ≤ b) :
    a * m / b ≤ m := by
  calc a * m / b ≤ b * m / b := Nat.div_le_div_right (Nat.mul_le_mul_right m hab)
  _ = m := by rw [Nat.mul_div_cancel_left m hb]

/-- The interpolated value lies between its two support points. -/
theorem quantileSorted_between (xs : List ℚ) (hs : xs.Sorted (· ≤ ·))
    (hne : xs ≠ []) (a b : ℕ) (hb : 0 < b) (hab : a ≤ b) :
    nthD xs (a * (xs.length - 1) / b) 0 ≤ quantileSorted xs a b ∧
      quantileSorted xs a b ≤ nthD xs (a * (xs.length - 1) / b + 1)
        (nthD xs (a * (xs.length - 1) / b) 0) := by
  have hn : 0 < xs.length := List.length_pos.mpr hne
  set m := xs.length - 1 with hm
  set i := a * m / b with hi
  set h : ℚ := ((a * m : ℕ) : ℚ) / (b : ℚ) with hh
  obtain ⟨hfl, hfu⟩ := quantile_idx_le a b m hb
  have him : i ≤ m := quantile_idx_le_m a b m hb hab
  have hiN : i < xs.length := by omega
  set x0 := nthD xs i 0 with hx0
  set x1 := nthD xs (i + 1) x0 with hx1
  have hx01 : x0 ≤ x1 := by
    by_cases hc : i + 1 < xs.length
    · have e0 : x0 = xs.get ⟨i, hiN⟩ := nthD_eq_get xs 0 i hiN
      have e1 : x1 = xs.get ⟨i + 1, hc⟩ := by
        rw [hx1, nthD_eq_get xs x0 (i + 1) hc]
      rw [e0, e1]
      exact hs.rel_get_of_le (by simp [Fin.le_def])
    · rw [hx1, nthD_of_le xs x0 (i + 1) (le_of_not_lt hc)]
  have hr0 : (0 : ℚ) ≤ h - (i : ℚ) := sub_nonneg.mpr hfl
  have hr1 : h - (i : ℚ) ≤ 1 := by linarith
  constructor
  · show x0 ≤ x0 + (h - (i : ℚ)) * (x1 - x0)
    nlinarith
  · show x0 + (h - (i : ℚ)) * (x1 - x0) ≤ x1
    nlinarith

/-- Interpolated quantiles are monotone in the quantile level: on a sorted
nonempty list, the `a/b` quantile is at most the `c/d` quantile whenever
`a/b ≤ c/d` (both levels in `[0,1]`). -/
theorem quantileSorted_mono (xs : List ℚ) (hs : xs.Sorted (· ≤ ·))
    (hne : xs ≠ []) (a b c d : ℕ) (hb : 0 < b) (hd : 0 < d)
    (hab : a ≤ b) (hcd : c ≤ d) (hq : (a : ℚ) / (b : ℚ) ≤ (c : ℚ) / (d : ℚ)) :
    quantileSorted xs a b ≤ quantileSorted xs c d := by
  have hn : 0 < xs.length := List.length_pos.mpr hne
  set m := xs.length - 1 with hm
  set i₁ := a * m / b with hi₁
  set i₂ := c * m / d with hi₂
  set h₁ : ℚ := ((a * m : ℕ) : ℚ) / (b : ℚ) with hh₁
  set h₂ : ℚ := ((c * m : ℕ) : ℚ) / (d : ℚ) with hh₂
  have hb' : (0 : ℚ) < (b : ℚ) := by exact_mod_cast hb
  have hd' : (0 : ℚ) < (d : ℚ) := by exact_mod_cast hd
  have hm0 : (0 : ℚ) ≤ (m : ℚ) := by positivity
  have hh : h₁ ≤ h₂ := by
    have e1 : h₁ = (a : ℚ) / (b : ℚ) * (m : ℚ) := by rw [hh₁]; push_cast; ring
    have e2 : h₂ = (c : ℚ) / (d : ℚ) * (m : ℚ) := by rw [hh₂]; push_cast; ring
    rw [e1, e2]
    exact mul_le_mul_of_nonneg_right hq hm0
  obtain ⟨hfl₁, hfu₁⟩ := quantile_idx_le a b m hb
  obtain ⟨hfl₂, hfu₂⟩ := quantile_idx_le c d m hd
  have him₁ : i₁ ≤ m := quantile_idx_le_m a b m hb hab
  have him₂ : i₂ ≤ m := quantile_idx_le_m c d m hd hcd
  have hi12 : i₁ ≤ i₂ := by
    by_contra hcon
    have h21 : i₂ + 1 ≤ i₁ := by omega
    have : h₂ < h₁ := by
      calc h₂ < (i₂ : ℚ) + 1 := hfu₂
      _ ≤ (i₁ : ℚ) := by exact_mod_cast h21
      _ ≤ h₁ := hfl₁
    linarith
  have hiN₁ : i₁ < xs.length := by omega
  have hiN₂ : i₂ < xs.length := by omega
  rcases eq_or_lt_of_le hi12 with heq | hlt
  · -- same support interval: linear interpolation with larger coefficient
    show nthD xs i₁ 0 + (h₁ - (i₁ : ℚ)) * (nthD xs (i₁ + 1) (nthD xs i₁ 0) - nthD xs i₁ 0) ≤
      nthD xs i₂ 0 + (h₂ - (i₂ : ℚ)) * (nthD xs (i₂ + 1) (nthD xs i₂ 0) - nthD xs i₂ 0)
    rw [← heq]
    have hx01 : nthD xs i₁ 0 ≤ nthD xs (i₁ + 1) (nthD xs i₁ 0) := by
      by_cases hc : i₁ + 1 < xs.length
      · have e0 : nthD xs i₁ 0 = xs.get ⟨i₁, hiN₁⟩ := nthD_eq_get xs 0 i₁ hiN₁
        have e1 : nthD xs (i₁ + 1) (nthD xs i₁ 0) = xs.get ⟨i₁ + 1, hc⟩ :=
          nthD_eq_get xs _ (i₁ + 1) hc
        rw [e1, e0]
        exact hs.rel_get_of_le (by simp [Fin.le_def])
      · rw [nthD_of_le xs _ (i₁ + 1) (le_of_not_lt hc)]
    nlinarith
  · -- the first value is below its right support point, which is below the
    -- second's left support point
    have q1le := (quantileSorted_between xs hs hne a b hb hab).2
    have q2ge := (quantileSorted_between xs hs hne c d hd hcd).1
    have hstep : i₁ + 1 < xs.length := by omega
    have e1 : nthD xs (i₁ + 1) (nthD xs i₁ 0) = xs.get ⟨i₁ + 1, hstep⟩ :=
      nthD_eq_get xs _ (i₁ + 1) hstep
    have e2 : nthD xs i₂ 0 = xs.get ⟨i₂, hiN₂⟩ := nthD_eq_get xs 0 i₂ hiN₂
    have hmid : xs.get ⟨i₁ + 1, hstep⟩ ≤ xs.get ⟨i₂, hiN₂⟩ :=
      hs.rel_get_of_le (by simp [Fin.le_def]; omega)
    calc quantileSorted xs a b ≤ nthD xs (i₁ + 1) (nthD xs i₁ 0) := q1le
    _ = xs.get ⟨i₁ + 1, hstep⟩ := e1
    _ ≤ xs.get ⟨i₂, hiN₂⟩ := hmid
    _ = nthD xs i₂ 0 := e2.symm
    _ ≤ quantileSorted xs c d := q2ge

/-- `Q1 ≤ Q3` whenever both exist for a column. -/
theorem quantile_q1_le_q3 (c : NumCol) (q1 q3 : ℚ)
    (h1 : quantile? c 1 4 = some q1) (h3 : quantile? c 3 4 = some q3) :
    q1 ≤ q3 := by
  unfold quantile? at h1 h3
  by_cases hE : (sortQ (c.filterMap id)).isEmpty
  · rw [if_pos hE] at h1; exact absurd h1 (by simp)
  · rw [if_neg hE] at h1 h3
    have hne : sortQ (c.filterMap id) ≠ [] := by
      simpa [List.isEmpty_iff] using hE
    obtain rfl := Option.some.inj h1
    obtain rfl := Option.some.inj h3
    exact quantileSorted_mono _ (sortQ_sorted _) hne 1 4 3 4 (by norm_num)
      (by norm_num) (by norm_num) (by norm_num) (by norm_num)

theorem clipVal_bounds (L U v : ℚ) (h : L ≤ U) :
    L ≤ clipVal L U v ∧ clipVal L U v ≤ U := by
  unfold clipVal
  constructor
  · exact le_min (le_max_right v L) h
  · exact min_le_right _ _

theorem rhe_intCast (m : ℤ) : rhe ((m : ℚ)) = m := by
  unfold rhe
  rw [Int.floor_intCast]
  norm_num

theorem round4_round4 (x : ℚ) : round4 (round4 x) = round4 x := by
  unfold round4
  rw [div_mul_cancel₀ _ (by norm_num : (10000 : ℚ) ≠ 0), rhe_intCast]

theorem abs_rhe_sub (r : ℚ) : |(rhe r : ℚ) - r| ≤ 1/2 := by
  have hfl : ((⌊r⌋ : ℤ) : ℚ) ≤ r := Int.floor_le r
  have hfu : r < ((⌊r⌋ : ℤ) : ℚ) + 1 := Int.lt_floor_add_one r
  unfold rhe
  simp only []
  split_ifs with h1 h2 h3 <;> push_cast <;> rw [abs_le] <;> constructor <;> linarith

theorem abs_round4_sub (x : ℚ) : |round4 x - x| ≤ 1/20000 := by
  have h := abs_rhe_sub (x * 10000)
  have e : round4 x - x = ((rhe (x * 10000) : ℚ) - x * 10000) / 10000 := by
    unfold round4; ring
  rw [e, abs_div]
  rw [show |(10000 : ℚ)| = 10000 from abs_of_pos (by norm_num)]
  linarith [div_le_div_of_nonneg_right (c := (10000 : ℚ)) h (by norm_num)]

theorem mem_filterMap_map (f : ℚ → ℚ) (l : List (Option ℚ)) (v : ℚ) :
    v ∈ (l.map (Option.map f)).filterMap id ↔ ∃ w ∈ l.filterMap id, f w = v := by
  simp only [List.mem_filterMap, List.mem_map, id]
  constructor
  · rintro ⟨o, ⟨o', ho', rfl⟩, hv⟩
    rcases o' with _ | w
    · simp at hv
    · simp at hv
      exact ⟨w, ⟨some w, ho', rfl⟩, hv⟩
  · rintro ⟨w, ⟨o, ho, rfl⟩, rfl⟩
    exact ⟨some (f w), ⟨some w, ho, rfl⟩, rfl⟩

/-- The clipped column's non-null values lie inside the `k = 1.5` IQR
bounds computed on the pre-clip values, and after the final rounding they
lie inside those bounds widened by `1/20000` (half of the last rounded
decimal). -/
theorem cleanNumCol_bounds (c : NumCol) (q1 q3 : ℚ)
    (h1 : quantile? (imputeCol c) 1 4 = some q1)
    (h3 : quantile? (imputeCol c) 3 4 = some q3) :
    (∀ v ∈ (clipCol (imputeCol c)).filterMap id,
      q1 - 3/2 * (q3 - q1) ≤ v ∧ v ≤ q3 + 3/2 * (q3 - q1)) ∧
    (∀ v ∈ (cleanNumCol c).filterMap id,
      q1 - 3/2 * (q3 - q1) - 1/20000 ≤ v ∧ v ≤ q3 + 3/2 * (q3 - q1) + 1/20000) := by
  have hq13 : q1 ≤ q3 := quantile_q1_le_q3 _ _ _ h1 h3
  have hLU : q1 - 3/2 * (q3 - q1) ≤ q3 + 3/2 * (q3 - q1) := by linarith
  have hclip : clipCol (imputeCol c) =
      (imputeCol c).map (Option.map (clipVal (q1 - 3/2 * (q3 - q1)) (q3 + 3/2 * (q3 - q1)))) := by
    unfold clipCol
    rw [h1, h3]
  have hmain : ∀ v ∈ (clipCol (imputeCol c)).filterMap id,
      q1 - 3/2 * (q3 - q1) ≤ v ∧ v ≤ q3 + 3/2 * (q3 - q1) := by
    intro v hv
    rw [hclip, mem_filterMap_map] at hv
    obtain ⟨w, _, rfl⟩ := hv
    exact clipVal_bounds _ _ w hLU
  refine ⟨hmain, ?_⟩
  intro v hv
  have : cleanNumCol c = (clipCol (imputeCol c)).map (Option.map round4) := rfl
  rw [this, mem_filterMap_map] at hv
  obtain ⟨w, hw, rfl⟩ := hv
  obtain ⟨hwl, hwu⟩ := hmain w hw
  have habs := abs_round4_sub w
  rw [abs_le] at habs
  constructor <;> linarith [habs.1, habs.2]

theorem map_getD_some {α : Type} (l : List (Option α)) (m : α)
    (h : ∀ o ∈ l, o.isSome) : l.map (fun o => some (o.getD m)) = l := by
  induction l with
  | nil => rfl
  | cons o l ih =>
      rcases o with _ | v
      · exact absurd (h none (by simp)) (by simp)
      · simp only [List.map_cons, Option.getD_some, List.cons.injEq, true_and]
        exact ih (fun o ho => h o (by simp [ho]))

theorem map_optmap_allsome {α : Type} (g : α → α) (l : List (Option α))
    (h : ∀ o ∈ l, o.isSome) : ∀ o ∈ l.map (Option.map g), o.isSome := by
  intro o ho
  rw [List.mem_map] at ho
  obtain ⟨o', ho', rfl⟩ := ho
  rcases o' with _ | v
  · exact absurd (h none ho') (by simp)
  · simp

theorem sortQ_eq_nil_iff (l : List ℚ) : sortQ l = [] ↔ l = [] := by
  constructor
  · intro h
    have := (sortQ_perm l).length_eq
    rw [h] at this
    exact List.length_eq_zero.mp this.symm
  · rintro rfl; rfl

theorem quantile?_isSome_iff (c : NumCol) (a b : ℕ) :
    (quantile? c a b).isSome ↔ c.filterMap id ≠ [] := by
  unfold quantile?
  by_cases hE : (sortQ (c.filterMap id)).isEmpty
  · rw [if_pos hE]
    simp only [Option.isSome_none, Bool.false_eq_true, false_iff, not_not]
    rw [List.isEmpty_iff] at hE
    exact (sortQ_eq_nil_iff _).mp hE
  · rw [if_neg hE]
    simp only [Option.isSome_some, true_iff]
    intro hnil
    exact hE (by rw [List.isEmpty_iff, sortQ_eq_nil_iff]; exact hnil)

theorem median?_isSome_iff (c : NumCol) :
    (median? c).isSome ↔ c.filterMap id ≠ [] := quantile?_isSome_iff c 1 2

theorem imputeCol_of_allnull (c : NumCol) (h : c.filterMap id = []) :
    imputeCol c = c := by
  have : median? c = none := by
    rcases hm : median? c with _ | m
    · rfl
    · exact absurd ((median?_isSome_iff c).mp (by simp [hm])) (by simp [h])
  unfold imputeCol
  rw [this]

theorem imputeCol_allsome (c : NumCol) (h : c.filterMap id ≠ []) :
    ∀ o ∈ imputeCol c, o.isSome := by
  have hm : (median? c).isSome := (median?_isSome_iff c).mpr h
  rcases hme : median? c with _ | m
  · rw [hme] at hm; simp at hm
  · unfold imputeCol
    rw [hme]
    intro o ho
    rw [List.mem_map] at ho
    obtain ⟨o', _, rfl⟩ := ho
    simp

theorem imputeCol_eq_self (c : NumCol) (h : ∀ o ∈ c, o.isSome) :
    imputeCol c = c := by
  unfold imputeCol
  rcases median? c with _ | m
  · rfl
  · exact map_getD_some c m h

theorem allnull_map_eq_self {α : Type} (g : α → α) (l : List (Option α))
    (h : l.filterMap id = []) : l.map (Option.map g) = l := by
  induction l with
  | nil => rfl
  | cons o l ih =>
      rcases o with _ | v
      · simpa using ih (by simpa using h)
      · simp at h

theorem clipCol_of_allnull (c : NumCol) (h : c.filterMap id = []) :
    clipCol c = c := by
  have h1 : quantile? c 1 4 = none := by
    rcases hq : quantile? c 1 4 with _ | q
    · rfl
    · exact absurd ((quantile?_isSome_iff c 1 4).mp (by simp [hq])) (by simp [h])
  unfold clipCol
  rw [h1]

theorem roundCol_of_allnull (c : NumCol) (h : c.filterMap id = []) :
    roundCol c = c := allnull_map_eq_self _ c h

theorem cleanNumCol_of_allnull (c : NumCol) (h : c.filterMap id = []) :
    cleanNumCol c = c := by
  unfold cleanNumCol
  rw [imputeCol_of_allnull c h, clipCol_of_allnull c h, roundCol_of_allnull c h]

theorem clipCol_allsome (c : NumCol) (h : ∀ o ∈ c, o.isSome) :
    ∀ o ∈ clipCol c, o.isSome := by
  unfold clipCol
  rcases quantile? c 1 4 with _ | q1 <;> rcases quantile? c 3 4 with _ | q3
  all_goals first
    | exact h
    | exact map_optmap_allsome _ c h

theorem cleanNumCol_allsome (c : NumCol) (h : c.filterMap id ≠ []) :
    ∀ o ∈ cleanNumCol c, o.isSome := by
  unfold cleanNumCol roundCol
  exact map_optmap_allsome _ _ (clipCol_allsome _ (imputeCol_allsome c h))

theorem roundCol_roundCol (c : NumCol) : roundCol (roundCol c) = roundCol c := by
  unfold roundCol
  rw [List.map_map]
  apply List.map_congr_left
  intro o _
  rcases o with _ | v
  · rfl
  · simp [Function.comp, round4_round4]

theorem inIQRBounds_iff (c : NumCol) :
    inIQRBounds c ↔
      (match quantile? c 1 4, quantile? c 3 4 with
      | some q1, some q3 =>
          ∀ v ∈ c.filterMap id, q1 - 3/2 * (q3 - q1) ≤ v ∧ v ≤ q3 + 3/2 * (q3 - q1)
      | _, _ => True) := by
  unfold inIQRBounds inIQRBoundsB
  rcases quantile? c 1 4 with _ | q1 <;> rcases quantile? c 3 4 with _ | q3
  · simp
  · simp
  · simp
  · rw [List.all_eq_true]
    constructor
    · intro h v hv; simpa using h v hv
    · intro h v hv; simpa using h v hv

theorem clipVal_of_mem (L U v : ℚ) (h1 : L ≤ v) (h2 : v ≤ U) :
    clipVal L U v = v := by
  unfold clipVal
  rw [max_eq_left h1, min_eq_left h2]

theorem clipCol_eq_self (c : NumCol) (h : inIQRBounds c) : clipCol c = c := by
  rw [inIQRBounds_iff] at h
  unfold clipCol
  rcases hq1 : quantile? c 1 4 with _ | q1 <;> rcases hq3 : quantile? c 3 4 with _ | q3
  · rfl
  · rfl
  · rfl
  · rw [hq1, hq3] at h
    conv_rhs => rw [← List.map_id c]
    apply List.map_congr_left
    intro o ho
    rcases o with _ | v
    · rfl
    · have hv : v ∈ c.filterMap id := by
        rw [List.mem_filterMap]; exact ⟨some v, ho, rfl⟩
      obtain ⟨hl, hu⟩ := h v hv
      simp [clipVal_of_mem _ _ v hl hu]

theorem imputeCol_cleanNumCol (c : NumCol) :
    imputeCol (cleanNumCol c) = cleanNumCol c := by
  by_cases h : c.filterMap id = []
  · rw [cleanNumCol_of_allnull c h, imputeCol_of_allnull c h]
  · exact imputeCol_eq_self _ (cleanNumCol_allsome c h)

theorem roundCol_cleanNumCol (c : NumCol) :
    roundCol (cleanNumCol c) = cleanNumCol c := roundCol_roundCol _

/-- One clean pass is a fixed point of a second pass on any column whose
values already sit inside the re-computed bounds. -/
theorem cleanNumCol_idem (c : NumCol) (h : inIQRBounds (cleanNumCol c)) :
    cleanNumCol (cleanNumCol c) = cleanNumCol c := by
  conv_lhs => rw [cleanNumCol, imputeCol_cleanNumCol c, clipCol_eq_self _ h,
    roundCol_cleanNumCol c]

theorem foldl_modeStep_isSome (g : Option String → String → Option String)
    (hg : ∀ t s, (g (some t) s).isSome) :
    ∀ (l : List String) (t : String), (l.foldl g (some t)).isSome := by
  intro l
  induction l with
  | nil => intro t; simp
  | cons x xs ih =>
      intro t
      rcases hs : g (some t) x with _ | u
      · exact absurd (hg t x) (by simp [hs])
      · simpa [hs] using ih u

theorem modeFirst_isSome_iff (c : CatCol) :
    (modeFirst c).isSome ↔ c.filterMap id ≠ [] := by
  unfold modeFirst
  rcases hv : c.filterMap id with _ | ⟨x, xs⟩
  · simp
  · simp only [List.foldl_cons, ne_eq, reduceCtorEq, not_false_eq_true, iff_true]
    refine foldl_modeStep_isSome _ (fun t s => ?_) xs x
    split <;> first | rfl | (split <;> rfl)

theorem fillCat_of_none (c : CatCol) (h : modeFirst c = none) : fillCat c = c := by
  unfold fillCat; rw [h]

theorem fillCat_allsome (c : CatCol) (m : String) (h : modeFirst c = some m) :
    ∀ o ∈ fillCat c, o.isSome := by
  unfold fillCat
  rw [h]
  intro o ho
  rw [List.mem_map] at ho
  obtain ⟨o', _, rfl⟩ := ho
  simp

theorem fillCat_eq_self (c : CatCol) (h : ∀ o ∈ c, o.isSome) : fillCat c = c := by
  unfold fillCat
  rcases modeFirst c with _ | m
  · rfl
  · exact map_getD_some c m h

theorem fillCat_nonnull (c : CatCol) (m : String) (h : modeFirst c = some m) :
    (fillCat c).filterMap id ≠ [] := by
  have hne : c.filterMap id ≠ [] := (modeFirst_isSome_iff c).mp (by simp [h])
  have hcne : c ≠ [] := by rintro rfl; exact hne rfl
  unfold fillCat
  rw [h, List.filterMap_map]
  have : (id ∘ fun o : Option String => some (o.getD m)) = some ∘ (fun o => o.getD m) := rfl
  rw [this, List.filterMap_eq_map]
  simpa using hcne

theorem modeFirst_fillCat_isSome (c : CatCol) (m : String) (h : modeFirst c = some m) :
    (modeFirst (fillCat c)).isSome :=
  (modeFirst_isSome_iff _).mpr (fillCat_nonnull c m h)

theorem fillCat_fillCat (c : CatCol) : fillCat (fillCat c) = fillCat c := by
  rcases hm : modeFirst c with _ | m
  · rw [fillCat_of_none c hm, fillCat_of_none c hm]
  · exact fillCat_eq_self _ (fillCat_allsome c m hm)

theorem catsAvail_map_fillCat (cats : List CatCol) (h : catsAvail cats = true) :
    catsAvail (cats.map fillCat) = true := by
  unfold catsAvail at h ⊢
  rw [List.any_eq_true] at h ⊢
  obtain ⟨c, hc, hsome⟩ := h
  rcases hm : modeFirst c with _ | m
  · rw [hm] at hsome; simp at hsome
  · exact ⟨fillCat c, List.mem_map.mpr ⟨c, hc, rfl⟩, modeFirst_fillCat_isSome c m hm⟩

theorem catStep_catStep (cats : List CatCol) : catStep (catStep cats) = catStep cats := by
  by_cases h : catsAvail cats
  · unfold catStep
    rw [if_pos h, if_pos (catsAvail_map_fillCat cats h), List.map_map]
    apply List.map_congr_left
    intro c _
    exact fillCat_fillCat c
  · unfold catStep
    rw [if_neg h, if_neg h]

theorem frameEq (a b : Frame) (h1 : a.num = b.num) (h2 : a.cat = b.cat) : a = b := by
  cases a; cases b; cases h1; cases h2; rfl

/-- Cleaning is a fixed point of a second application as soon as every
cleaned numeric column already lies inside its re-computed IQR bounds. -/
theorem cleanData_idem (f : Frame) (h : ∀ c ∈ (cleanData f).num, inIQRBounds c) :
    cleanData (cleanData f) = cleanData f := by
  apply frameEq
  · calc (cleanData (cleanData f)).num
        = (cleanData f).num.map cleanNumCol := cleanData_num _
    _ = (cleanData f).num.map id := by
        apply List.map_congr_left
        intro c' hc'
        have hb : inIQRBounds c' := h c' hc'
        have : c' ∈ f.num.map cleanNumCol := by rwa [cleanData_num f] at hc'
        rw [List.mem_map] at this
        obtain ⟨c, _, rfl⟩ := this
        exact cleanNumCol_idem c hb
    _ = (cleanData f).num := List.map_id _
  · calc (cleanData (cleanData f)).cat
        = catStep ((cleanData f).cat) := cleanData_cat _
    _ = catStep (catStep f.cat) := by rw [cleanData_cat f]
    _ = catStep f.cat := catStep_catStep _
    _ = (cleanData f).cat := (cleanData_cat f).symm

theorem cleanEducationData_error_of_noValue (f : EduFrame) (h : f.hasValue = false) :
    cleanEducationData f = Except.error "KeyError: value" := by
  unfold cleanEducationData
  rw [h]
  rfl

/-- Rows surviving the education cleaner lie inside the `k = 3` bounds, and
rows are removed, never clipped: the output is never longer than the input. -/
theorem cleanEducationData_bounds (f : EduFrame) (out : List EduCleanRow)
    (hout : cleanEducationData f = Except.ok out) :
    (∀ lo hi, eduBounds (eduCoerced f) = some (lo, hi) →
      ∀ r ∈ out, lo ≤ r.value ∧ r.value ≤ hi) ∧
    out.length ≤ f.rows.length := by
  by_cases hv : f.hasValue = true
  · by_cases hy : f.hasYear = true
    · by_cases hg : f.hasGeo = true
      · simp only [cleanEducationData, hv, hy, hg, Bool.not_true, Bool.false_eq_true,
          if_false, Except.ok.injEq] at hout
        subst hout
        set rows3 :=
          match eduBounds (eduCoerced f) with
          | none => ([] : List EduRow2)
          | some (lo, hi) =>
              (eduCoerced f).filter (fun r =>
                match r.value with
                | some v => decide (lo ≤ v ∧ v ≤ hi)
                | none => false) with hrows3
        set rows4 := rows3.filterMap (fun r =>
          match coerceNum r.year, r.value with
          | some y, some v => some (EduCleanRow.mk r.geo (truncQ y) v)
          | _, _ => none) with hrows4
        have hperm := List.perm_insertionSort eduLe rows4
        constructor
        · intro lo hi hb r hr
          rw [hperm.mem_iff, hrows4, List.mem_filterMap] at hr
          obtain ⟨p, hp, hmatch⟩ := hr
          rw [hrows3, hb] at hp
          rw [List.mem_filter] at hp
          obtain ⟨_, hcond⟩ := hp
          rcases hpv : p.value with _ | v
          · rw [hpv] at hcond; simp at hcond
          · rw [hpv] at hcond
            simp only [decide_eq_true_eq] at hcond
            rcases hpy : coerceNum p.year with _ | y
            · rw [hpy, hpv] at hmatch; simp at hmatch
            · rw [hpy, hpv] at hmatch
              simp only [Option.some.injEq] at hmatch
              rw [← hmatch]
              exact hcond
        · calc (List.insertionSort eduLe rows4).length
              = rows4.length := hperm.length_eq
          _ ≤ rows3.length := List.length_filterMap_le _ _
          _ ≤ (eduCoerced f).length := by
              rw [hrows3]
              rcases eduBounds (eduCoerced f) with _ | ⟨lo, hi⟩
              · simp
              · exact List.length_filter_le _ _
          _ ≤ f.rows.length := by
              unfold eduCoerced
              rw [List.length_map]
              exact List.length_filter_le _ _
      · simp only [Bool.not_eq_true] at hg
        simp [cleanEducationData, hv, hy, hg] at hout
    · simp only [Bool.not_eq_true] at hy
      simp [cleanEducationData, hv, hy] at hout
  · simp only [Bool.not_eq_true] at hv
    simp [cleanEducationData, hv] at hout

theorem getField_append_right (d : Doc) (k : String) (v : MVal)
    (h : hasField d k = false) : getField (d ++ [(k, v)]) k = some v := by
  induction d with
  | nil => simp [getField]
  | cons p ps ih =>
      simp only [hasField, List.any_cons, Bool.or_eq_false_iff] at h
      simp only [List.cons_append, getField, h.1]
      exact ih (by simp [hasField, h.2])

theorem getField_append_other (d : Doc) (k k' : String) (v : MVal)
    (h : k' ≠ k) : getField (d ++ [(k, v)]) k' = getField d k' := by
  induction d with
  | nil => simp [getField, h, beq_eq_false_iff_ne, Ne.symm h]
  | cons p ps ih =>
      simp only [List.cons_append, getField]
      by_cases hp : p.1 == k'
      · rw [if_pos hp, if_pos hp]
      · rw [if_neg hp, if_neg hp]
        exact ih

theorem getField_setField_self (d : Doc) (k : String) (v : MVal) :
    getField (setField d k v) k = some v := by
  unfold setField
  by_cases h : hasField d k
  · rw [if_pos h]
    induction d with
    | nil => simp [hasField] at h
    | cons p ps ih =>
        simp only [hasField, List.any_cons, Bool.or_eq_true] at h
        rcases h with h | h
        · simp [getField, h]
        · simp only [List.map_cons]
          by_cases hp : p.1 == k
          · simp [getField, hp]
          · rw [if_neg hp]
            simp only [getField, hp, if_neg]
            exact ih (by simpa [hasField] using h)
  · rw [if_neg h]
    exact getField_append_right d k v (by simpa using h)

theorem map_setField_id (ps : Doc) (k : String) (v : MVal)
    (h : hasField ps k = false) :
    ps.map (fun p => if p.1 == k then (k, v) else p) = ps := by
  induction ps with
  | nil => rfl
  | cons p ps ih =>
      simp only [hasField, List.any_cons, Bool.or_eq_false_iff] at h
      simp only [List.map_cons, h.1, Bool.false_eq_true, if_false]
      rw [ih (by simp [hasField, h.2])]

theorem getField_map_setField (ps : Doc) (k k' : String) (v : MVal)
    (h : k' ≠ k) :
    getField (ps.map (fun p => if p.1 == k then (k, v) else p)) k' =
      getField ps k' := by
  induction ps with
  | nil => rfl
  | cons p ps ih =>
      simp only [List.map_cons]
      by_cases hp : p.1 == k
      · have h1 : ((k, v).1 == k') = false := by
          simp only [beq_eq_false_iff_ne]
          exact Ne.symm h
        have h2 : (p.1 == k') = false := by
          simp only [beq_eq_false_iff_ne]
          rw [beq_iff_eq] at hp
          rw [hp]
          exact Ne.symm h
        rw [if_pos hp]
        simp only [getField, h1, h2, Bool.false_eq_true, if_false]
        exact ih
      · rw [if_neg hp]
        simp only [getField]
        by_cases hpk : p.1 == k'
        · rw [if_pos hpk, if_pos hpk]
        · rw [if_neg hpk, if_neg hpk]
          exact ih

theorem getField_setField_other (d : Doc) (k k' : String) (v : MVal)
    (h : k' ≠ k) : getField (setField d k v) k' = getField d k' := by
  unfold setField
  by_cases hf : hasField d k
  · rw [if_pos hf]
    exact getField_map_setField d k k' v h
  · rw [if_neg hf]
    exact getField_append_other d k k' v h

theorem applySet_recDoc (d : Doc) (now : ℕ) (r : Rec) :
    applySet d (recDoc now r) =
      setField (setField (setField (setField (setField d
        "country" (MVal.str r.country))
        "year" (MVal.num (r.year : ℚ)))
        "value" (MVal.num r.value))
        "metadata" (MVal.str r.source))
        "updated_at" (MVal.time now) := rfl

theorem getField_applySet_recDoc (d : Doc) (now : ℕ) (r : Rec) :
    getField (applySet d (recDoc now r)) "country" = some (MVal.str r.country) ∧
    getField (applySet d (recDoc now r)) "year" = some (MVal.num (r.year : ℚ)) ∧
    getField (applySet d (recDoc now r)) "value" = some (MVal.num r.value) ∧
    getField (applySet d (recDoc now r)) "updated_at" = some (MVal.time now) := by
  rw [applySet_recDoc]
  refine ⟨?_, ?_, ?_, ?_⟩
  · rw [getField_setField_other _ _ _ _ (by decide),
      getField_setField_other _ _ _ _ (by decide),
      getField_setField_other _ _ _ _ (by decide),
      getField_setField_other _ _ _ _ (by decide),
      getField_setField_self]
  · rw [getField_setField_other _ _ _ _ (by decide),
      getField_setField_other _ _ _ _ (by decide),
      getField_setField_other _ _ _ _ (by decide),
      getField_setField_self]
  · rw [getField_setField_other _ _ _ _ (by decide),
      getField_setField_other _ _ _ _ (by decide),
      getField_setField_self]
  · rw [getField_setField_self]

theorem matchesKey_applySet_recDoc (d : Doc) (now : ℕ) (r : Rec) :
    matchesKey (applySet d (recDoc now r)) r.country r.year = true := by
  obtain ⟨h1, h2, _, _⟩ := getField_applySet_recDoc d now r
  simp [matchesKey, h1, h2]

theorem matchesKey_recDoc (now : ℕ) (r : Rec) :
    matchesKey (recDoc now r) r.country r.year = true := by
  simp [matchesKey, recDoc, getField]

theorem getField_recDoc (now : ℕ) (r : Rec) :
    getField (recDoc now r) "value" = some (MVal.num r.value) ∧
    getField (recDoc now r) "updated_at" = some (MVal.time now) := by
  constructor <;> simp [recDoc, getField]

theorem countKey_cons (d : Doc) (ds : List Doc) (c : String) (y : ℤ) :
    countKey (d :: ds) c y =
      (if matchesKey d c y then 1 else 0) + countKey ds c y := by
  unfold countKey
  rw [List.filter_cons]
  by_cases h : matchesKey d c y
  · simp only [h, if_true, List.length_cons]
    omega
  · simp [h]

/-- With at most one stored document per key (the unique-index invariant),
the upsert leaves exactly one document for the key. -/
theorem countKey_upsertOne (r : Rec) (now : ℕ) (store : List Doc)
    (hinv : countKey store r.country r.year ≤ 1) :
    countKey (upsertOne r.country r.year (recDoc now r) store) r.country r.year = 1 := by
  induction store with
  | nil =>
      unfold upsertOne
      rw [countKey_cons]
      simp [matchesKey_recDoc now r, countKey]
  | cons d ds ih =>
      rw [countKey_cons] at hinv
      unfold upsertOne
      by_cases h : matchesKey d r.country r.year
      · rw [if_pos h]
        rw [if_pos h] at hinv
        rw [countKey_cons]
        rw [if_pos (matchesKey_applySet_recDoc d now r)]
        omega
      · rw [if_neg h]
        rw [if_neg h] at hinv
        rw [countKey_cons, if_neg h]
        simpa using ih (by omega)

/-- The upserted document for the key carries the record's latest value and
`updated_at` stamp. -/
theorem upsertOne_latest (r : Rec) (now : ℕ) (store : List Doc) :
    ∃ d ∈ upsertOne r.country r.year (recDoc now r) store,
      matchesKey d r.country r.year = true ∧
      getField d "value" = some (MVal.num r.value) ∧
      getField d "updated_at" = some (MVal.time now) := by
  induction store with
  | nil =>
      refine ⟨recDoc now r, by simp [upsertOne], matchesKey_recDoc now r, ?_, ?_⟩
      · exact (getField_recDoc now r).1
      · exact (getField_recDoc now r).2
  | cons d ds ih =>
      unfold upsertOne
      by_cases h : matchesKey d r.country r.year
      · rw [if_pos h]
        obtain ⟨_, _, h3, h4⟩ := getField_applySet_recDoc d now r
        exact ⟨applySet d (recDoc now r), by simp,
          matchesKey_applySet_recDoc d now r, h3, h4⟩
      · rw [if_neg h]
        obtain ⟨d', hd', hprops⟩ := ih
        exact ⟨d', by simp [hd'], hprops⟩

theorem countKey_storeRecord_le_one (r : Rec) (now : ℕ) (store : List Doc)
    (hinv : countKey store r.country r.year ≤ 1) :
    countKey (storeRecord store r now) r.country r.year ≤ 1 := by
  unfold storeRecord
  rw [countKey_upsertOne r now store hinv]

theorem batches_join_aux {α : Type} (rows : List α) (b : ℕ) :
    ∀ m : ℕ,
      ((List.range m).map
        (fun i => ((rows.drop (i * b)).take (min ((i + 1) * b) rows.length - i * b)))).flatten
      = rows.take (min (m * b) rows.length) := by
  intro m
  induction m with
  | zero => simp
  | succ m ih =>
      rw [List.range_succ, List.map_append, List.flatten_append, ih]
      simp only [List.map_cons, List.map_nil, List.flatten_cons, List.flatten_nil,
        List.append_nil]
      by_cases hc : m * b < rows.length
      · have h1 : min (m * b) rows.length = m * b := min_eq_left (le_of_lt hc)
        have hmono : m * b ≤ (m + 1) * b := Nat.mul_le_mul_right b (Nat.le_succ m)
        have h2 : m * b ≤ min ((m + 1) * b) rows.length :=
          le_min hmono (le_of_lt hc)
        rw [h1]
        have h3 : min ((m + 1) * b) rows.length =
            m * b + (min ((m + 1) * b) rows.length - m * b) := by omega
        rw [h3, List.take_add]
        have h4 : m * b + (min ((m + 1) * b) rows.length - m * b) - m * b =
            min ((m + 1) * b) rows.length - m * b := by omega
        rw [h4]
      · have h1 : rows.length ≤ m * b := le_of_not_lt hc
        have hdrop : rows.drop (m * b) = [] := List.drop_eq_nil_of_le h1
        have hmono : m * b ≤ (m + 1) * b := Nat.mul_le_mul_right b (Nat.le_succ m)
        rw [hdrop]
        simp only [List.take_nil, List.append_nil]
        rw [min_eq_right h1, min_eq_right (le_trans h1 hmono)]

theorem ceil_div_mul_ge (n b : ℕ) (hb : 0 < b) : n ≤ (n + b - 1) / b * b := by
  rcases Nat.eq_zero_or_pos n with rfl | hn
  · simp
  · have h1 : (n + b - 1) / b = (n - 1) / b + 1 := by
      have e : n + b - 1 = (n - 1) + b := by omega
      rw [e, Nat.add_div_right _ hb]
    rw [h1]
    have h2 := Nat.div_add_mod (n - 1) b
    have h3 := Nat.mod_lt (n - 1) hb
    have h4 : ((n - 1) / b + 1) * b = b * ((n - 1) / b) + b := by ring
    omega

/-- `save_to_postgres` partitions the frame into `ceil(n/b)` batches whose
in-order concatenation is exactly the input. -/
theorem batches_spec {α : Type} (rows : List α) (b : ℕ) (hb : 0 < b) :
    (batches rows b).flatten = rows ∧
      (batches rows b).length = (rows.length + b - 1) / b := by
  constructor
  · unfold batches
    rw [batches_join_aux rows b]
    rw [min_eq_right (ceil_div_mul_ge rows.length b hb)]
    exact List.take_length rows
  · unfold batches
    rw [List.length_map, List.length_range]

theorem getEconomicIndicators_ok (cache : Option EconResult)
    (ext : List (Except String IndFrame)) (now : ℕ) :
    ∃ r, getEconomicIndicators cache ext now = Except.ok r := by
  unfold getEconomicIndicators
  rcases cache with _ | c
  · dsimp only
    split <;> exact ⟨_, rfl⟩
  · exact ⟨c, rfl⟩

theorem ssd_nonneg (l : List ℚ) : 0 ≤ ssd l := by
  apply List.sum_nonneg
  intro x hx
  rw [List.mem_map] at hx
  obtain ⟨y, _, rfl⟩ := hx
  positivity

theorem spd_self (xs : List ℚ) : spd xs xs = ssd xs := by
  unfold spd ssd
  congr 1
  have : ∀ (l : List ℚ) (m : ℚ),
      List.zipWith (fun x y => (x - m) * (y - m)) l l = l.map (fun x => (x - m) ^ 2) := by
    intro l m
    induction l with
    | nil => rfl
    | cons a l ih =>
        rw [List.zipWith_cons_cons, List.map_cons, ih]
        congr 1
        ring
  exact this xs (meanQ xs)

theorem spd_comm (xs ys : List ℚ) : spd xs ys = spd ys xs := by
  unfold spd
  have : ∀ (l₁ l₂ : List ℚ) (m₁ m₂ : ℚ),
      (List.zipWith (fun x y => (x - m₁) * (y - m₂)) l₁ l₂).sum =
        (List.zipWith (fun y x => (y - m₂) * (x - m₁)) l₂ l₁).sum := by
    intro l₁
    induction l₁ with
    | nil => intro l₂ m₁ m₂; cases l₂ <;> rfl
    | cons a l ih =>
        intro l₂ m₁ m₂
        cases l₂ with
        | nil => rfl
        | cons b l₂ =>
            simp only [List.zipWith_cons_cons, List.sum_cons, ih l₂ m₁ m₂]
            ring_nf
  exact this xs ys (meanQ xs) (meanQ ys)

theorem corrEntry_self (xs : List ℚ) (h : ssd xs ≠ 0) :
    corrEntry xs xs = some 1 := by
  unfold corrEntry
  rw [if_neg (by simpa using h), spd_self]
  congr 1
  rw [Real.mul_self_sqrt (by exact_mod_cast ssd_nonneg xs)]
  exact div_self (by exact_mod_cast h)

theorem corrEntry_comm (xs ys : List ℚ) : corrEntry xs ys = corrEntry ys xs := by
  unfold corrEntry
  by_cases h : ssd xs = 0 ∨ ssd ys = 0
  · rw [if_pos h, if_pos h.symm]
  · rw [if_neg h, if_neg (fun hc => h hc.symm)]
    rw [spd_comm, mul_comm]

example : quantile? [some 0, some 0, some 0, some (1/10000)] 3 4 = some (1/40000) := by
  norm_num [quantile?, sortQ, quantileSorted, List.insertionSort, List.orderedInsert,
    List.filterMap, nthD]

example : round4 (1/16000) = 1/10000 := by
  norm_num [round4, rhe]

example : clipCol [some 0, some 0, some 0, some (1/10000)]
    = [some 0, some 0, some 0, some (1/16000)] := by
  norm_num [clipCol, quantile?, sortQ, quantileSorted, List.insertionSort,
    List.orderedInsert, List.filterMap, nthD, clipVal]

theorem getD_mem {α : Type} (l : List α) (d : α) :
    ∀ i : ℕ, i < l.length → l.getD i d ∈ l := by
  induction l with
  | nil => intro i hi; simp at hi
  | cons x xs ih =>
      intro i hi
      cases i with
      | zero => simp
      | succ n =>
          simp only [List.getD_cons_succ]
          exact List.mem_cons_of_mem x (ih n (by simpa using hi))

theorem getD_map_lt {α β : Type} (g : α → β) (l : List α) (d : β) (dα : α) :
    ∀ i : ℕ, i < l.length → (l.map g).getD i d = g (l.getD i dα) := by
  induction l with
  | nil => intro i hi; simp at hi
  | cons x xs ih =>
      intro i hi
      cases i with
      | zero => rfl
      | succ n => simpa using ih n (by simpa using hi)

theorem getD_of_len_le {α : Type} (l : List α) (d : α) :
    ∀ i : ℕ, l.length ≤ i → l.getD i d = d := by
  induction l with
  | nil => intro i _; simp
  | cons x xs ih =>
      intro i hi
      cases i with
      | zero => simp at hi
      | succ n => simpa using ih n (by simpa using hi)

theorem entryAt_corr (cols : List (List ℚ)) (i j : ℕ)
    (hi : i < cols.length) (hj : j < cols.length) :
    entryAt (correlationMatrix cols) i j =
      corrEntry (cols.getD i []) (cols.getD j []) := by
  unfold entryAt correlationMatrix
  rw [getD_map_lt _ cols [] [] i hi, getD_map_lt _ cols none [] j hj]

theorem entryAt_corr_none (cols : List (List ℚ)) (i j : ℕ)
    (h : cols.length ≤ i ∨ cols.length ≤ j) :
    entryAt (correlationMatrix cols) i j = none := by
  rcases h with h | h
  · unfold entryAt correlationMatrix
    rw [getD_of_len_le _ _ i (by simpa using h)]
    rfl
  · by_cases hi : i < cols.length
    · unfold entryAt correlationMatrix
      rw [getD_map_lt _ cols [] [] i hi]
      exact getD_of_len_le _ _ j (by simpa using h)
    · unfold entryAt correlationMatrix
      rw [getD_of_len_le _ _ i (by simpa using le_of_not_lt hi)]
      rfl

theorem cleanNumCol_length (c : NumCol) : (cleanNumCol c).length = c.length := by
  have h1 : ∀ c' : NumCol, (clipCol c').length = c'.length := by
    intro c'
    unfold clipCol
    rcases quantile? c' 1 4 with _ | a <;> rcases quantile? c' 3 4 with _ | b <;> simp
  have h2 : (imputeCol c).length = c.length := by
    unfold imputeCol
    rcases median? c with _ | m <;> simp
  simp [cleanNumCol, roundCol, h1, h2]

/-! The ten claims. -/

/-- C1 (counterexample): the education copy's public cleaning operation
does raise — on a frame without a `value` column it returns an error
instead of the input frame. -/
theorem C1_counterexample : exceptOk (cleanEducationData eduNoValueFrame) = false := rfl

/-- C1 (amended): the economic cleaner's `clean_data` never raises — each
internal step catches its own exceptions; the step that fails continues
with the partially-cleaned, in-place-mutated frame (numeric imputation
kept, categoricals untouched), so the result need not be the original
frame.  The education cleaner's `clean_education_data`, by contrast, logs
and re-raises: on any frame without a `value` column it raises. -/
theorem C1_amended :
    (∀ f : Frame, cleanDataE f = Except.ok (cleanData f)) ∧
    (∀ f : Frame, catsAvail f.cat = false →
      handleMissingValues f = { f with num := f.num.map imputeCol }) ∧
    (∀ f : EduFrame, f.hasValue = false →
      ∃ e, cleanEducationData f = Except.error e) := by
  refine ⟨fun f => rfl, ?_, ?_⟩
  · intro f h
    unfold handleMissingValues handleMissingValuesBody
    rw [h]
    simp
  · intro f h
    exact ⟨_, cleanEducationData_error_of_noValue f h⟩

theorem C1_witness :
    eduNoValueFrame.hasValue = false ∧
      ∃ e, cleanEducationData eduNoValueFrame = Except.error e :=
  ⟨rfl, C1_amended.2.2 eduNoValueFrame rfl⟩

/-- C4 (counterexample): cleaning is not idempotent — on the single-column
frame `[0, 100, 100, 100]` the first pass clips `0` to `37.5`, and the
second pass, recomputing the quantiles on the clipped values, clips again
to `60.9375`. -/
theorem C4_counterexample : cleanData (cleanData exFrame4) ≠ cleanData exFrame4 := by
  with_unfolding_all decide

/-- C4 (amended): a second clean changes nothing **provided** every cleaned
numeric column already lies within the IQR bounds recomputed on the cleaned
distribution; imputation, rounding and the categorical step are always
fixed on a cleaned frame, but the clip step need not be, because the
quantiles are recomputed. -/
theorem C4_amended (f : Frame) (h : ∀ c ∈ (cleanData f).num, inIQRBounds c) :
    cleanData (cleanData f) = cleanData f := cleanData_idem f h

theorem C4_witness : cleanData (cleanData wFrame4) = cleanData wFrame4 :=
  C4_amended wFrame4 (by with_unfolding_all decide)

/-- C5 (confirmed): after cleaning, no null remains in a numeric column
with a computable median nor in a categorical column with a computable
mode; the imputation step fills numeric nulls with the column median and
categorical nulls with the column mode. -/
theorem C5_theorem (f : Frame) :
    ((cleanData f).num = f.num.map cleanNumCol ∧ (cleanData f).cat = catStep f.cat) ∧
    (∀ c ∈ f.num, (median? c).isSome = true →
      ∀ o ∈ cleanNumCol c, o.isSome = true) ∧
    (∀ c ∈ f.cat, (modeFirst c).isSome = true →
      catStep f.cat = f.cat.map fillCat ∧ ∀ o ∈ fillCat c, o.isSome = true) ∧
    (∀ (c : NumCol) (m : ℚ), median? c = some m →
      imputeCol c = c.map (fun o => some (o.getD m))) ∧
    (∀ (c : CatCol) (m : String), modeFirst c = some m →
      fillCat c = c.map (fun o => some (o.getD m))) := by
  refine ⟨⟨cleanData_num f, cleanData_cat f⟩, ?_, ?_, ?_, ?_⟩
  · intro c _ hm
    exact cleanNumCol_allsome c ((median?_isSome_iff c).mp hm)
  · intro c hc hm
    have avail : catsAvail f.cat = true := by
      unfold catsAvail
      rw [List.any_eq_true]
      exact ⟨c, hc, hm⟩
    obtain ⟨m, hm'⟩ := Option.isSome_iff_exists.mp hm
    refine ⟨by unfold catStep; rw [if_pos avail], fillCat_allsome c m hm'⟩
  · intro c m h
    unfold imputeCol
    rw [h]
  · intro c m h
    unfold fillCat
    rw [h]

theorem C5_witness :
    (median? [some 1, none]).isSome = true ∧
    (modeFirst [some "a", none]).isSome = true ∧
    (∀ o ∈ cleanNumCol [some 1, none], o.isSome = true) ∧
    (∀ o ∈ fillCat [some "a", none], o.isSome = true) := by
  refine ⟨by with_unfolding_all decide, by with_unfolding_all decide, ?_, ?_⟩
  · exact (C5_theorem wFrame5).2.1 [some 1, none] (by simp [wFrame5])
      (by with_unfolding_all decide)
  · exact ((C5_theorem wFrame5).2.2.1 [some "a", none] (by simp [wFrame5])
      (by with_unfolding_all decide)).2

/-- C6 (counterexample): the education-investment fetch does raise — on a
cache miss with a failing external call it propagates the error instead of
returning an empty frame. -/
theorem C6_counterexample :
    exceptOk (getEducationInvestmentData none
      (Except.error "ConnectionError: timeout") 0) = false := rfl

/-- C6 (amended): `get_economic_indicators` never raises — per-indicator
failures are skipped and a total failure yields an empty frame — but
`get_education_investment_data` logs and re-raises the external error on a
cache miss. -/
theorem C6_amended :
    (∀ (cache : Option EconResult) (ext : List (Except String IndFrame)) (now : ℕ),
      ∃ r, getEconomicIndicators cache ext now = Except.ok r) ∧
    (∀ (e : String) (now : ℕ),
      getEducationInvestmentData none (Except.error e) now = Except.error e) :=
  ⟨getEconomicIndicators_ok, fun _ _ => rfl⟩

set_option maxRecDepth 40000 in
/-- C2 (counterexample): the Database Manager's document save is a plain
`insert_many` — saving the same `(DE, 2020)` record twice stores two
copies, not one. -/
theorem C2_counterexample :
    countKey ((saveToMongo ((saveToMongo [] [d0] 5).1)
      ((saveToMongo [] [d0] 5).2) 6).1) "DE" 2020 = 2 ∧
    ¬ countKey ((saveToMongo ((saveToMongo [] [d0] 5).1)
      ((saveToMongo [] [d0] 5).2) 6).1) "DE" 2020 = 1 := by
  with_unfolding_all decide

/-- C2 (amended): only the Mongo import script's store operation upserts
keyed by `(country, year)`: under the unique-index invariant (at most one
stored document per key), saving the same-keyed record twice leaves exactly
one document, holding the latest `value` and an `updated_at` (not
`created_at`) stamped on every write.  The Database Manager's
`save_to_mongo` instead appends all documents to the collection. -/
theorem C2_amended (store : List Doc) (r1 r2 : Rec) (t1 t2 : ℕ)
    (hc : r2.country = r1.country) (hy : r2.year = r1.year)
    (hinv : countKey store r1.country r1.year ≤ 1) :
    countKey (storeRecord (storeRecord store r1 t1) r2 t2) r1.country r1.year = 1 ∧
    (∃ d ∈ storeRecord (storeRecord store r1 t1) r2 t2,
      matchesKey d r1.country r1.year = true ∧
      getField d "value" = some (MVal.num r2.value) ∧
      getField d "updated_at" = some (MVal.time t2)) ∧
    ∀ (docs : List Doc) (now : ℕ),
      ((saveToMongo store docs now).1).length = store.length + docs.length := by
  have h1 : countKey (storeRecord store r1 t1) r2.country r2.year ≤ 1 := by
    rw [hc, hy]
    exact countKey_storeRecord_le_one r1 t1 store hinv
  refine ⟨?_, ?_, ?_⟩
  · rw [← hc, ← hy]
    exact countKey_upsertOne r2 t2 (storeRecord store r1 t1) h1
  · rw [← hc, ← hy]
    exact upsertOne_latest r2 t2 (storeRecord store r1 t1)
  · intro docs now
    simp [saveToMongo]

set_option maxRecDepth 40000 in
theorem C2_witness :
    rec2.country = rec1.country ∧ rec2.year = rec1.year ∧
    countKey [] rec1.country rec1.year ≤ 1 ∧
    countKey (storeRecord (storeRecord [] rec1 3) rec2 4) rec1.country rec1.year = 1 ∧
    (∃ d ∈ storeRecord (storeRecord [] rec1 3) rec2 4,
      matchesKey d rec1.country rec1.year = true ∧
      getField d "value" = some (MVal.num rec2.value) ∧
      getField d "updated_at" = some (MVal.time 4)) := by
  have h := C2_amended [] rec1 rec2 3 4 rfl rfl (by with_unfolding_all decide)
  exact ⟨rfl, rfl, by with_unfolding_all decide, h.1, h.2.1⟩

/-- C3 (counterexample): on the column `[0, 0, 0, 0.0001]` the pre-clip
bounds are `[-3/80000, 1/16000]`; `0.0001` is clipped to `1/16000 =
0.0000625`, but the final rounding to four decimals turns it back into
`0.0001`, outside the upper bound — so not every cleaned value lies within
the pre-clip IQR bounds. -/
theorem C3_counterexample :
    (cleanData ⟨[exCol3], []⟩).num = [cleanNumCol exCol3] ∧
    quantile? (imputeCol exCol3) 1 4 = some 0 ∧
    quantile? (imputeCol exCol3) 3 4 = some (1/40000) ∧
    ¬ (∀ v ∈ (cleanNumCol exCol3).filterMap id,
        0 - 3/2 * (1/40000 - 0) ≤ v ∧ v ≤ 1/40000 + 3/2 * (1/40000 - 0)) := by
  have eimp : imputeCol exCol3 = exCol3 := imputeCol_eq_self _ (by decide)
  have eq1 : quantile? exCol3 1 4 = some 0 := by
    norm_num [quantile?, sortQ, quantileSorted, List.insertionSort,
      List.orderedInsert, List.filterMap, nthD, exCol3]
  have eq3 : quantile? exCol3 3 4 = some (1/40000) := by
    norm_num [quantile?, sortQ, quantileSorted, List.insertionSort,
      List.orderedInsert, List.filterMap, nthD, exCol3]
  have eclean : cleanNumCol exCol3 = exCol3 := by
    unfold cleanNumCol
    rw [eimp]
    have eclip : clipCol exCol3 = [some 0, some 0, some 0, some (1/16000)] := by
      unfold clipCol
      rw [eq1, eq3]
      norm_num [exCol3, clipVal]
    rw [eclip]
    norm_num [roundCol, round4, rhe, exCol3]
  refine ⟨by rw [cleanData_num]; rfl, by rw [eimp]; exact eq1, by rw [eimp]; exact eq3, ?_⟩
  intro hall
  have hv : (1/10000 : ℚ) ∈ (cleanNumCol exCol3).filterMap id := by
    rw [eclean]
    norm_num [exCol3]
  have hle := (hall _ hv).2
  norm_num at hle

/-- C3 (amended): for the economic cleaner no row is removed (columns keep
their length) and every value after the *clip step* lies within the
`k = 1.5` bounds computed on the pre-clip distribution; the final rounding
can move a value outside those bounds by at most `1/20000`.  The relaxed
`k = 3` education variant *removes* out-of-range rows instead of clipping:
every surviving value lies within its bounds and the output has at most as
many rows as the input. -/
theorem C3_amended :
    (∀ f : Frame, (cleanData f).num = f.num.map cleanNumCol ∧
      ∀ c ∈ f.num, (cleanNumCol c).length = c.length) ∧
    (∀ (c : NumCol) (q1 q3 : ℚ),
      quantile? (imputeCol c) 1 4 = some q1 →
      quantile? (imputeCol c) 3 4 = some q3 →
      (∀ v ∈ (clipCol (imputeCol c)).filterMap id,
        q1 - 3/2 * (q3 - q1) ≤ v ∧ v ≤ q3 + 3/2 * (q3 - q1)) ∧
      (∀ v ∈ (cleanNumCol c).filterMap id,
        q1 - 3/2 * (q3 - q1) - 1/20000 ≤ v ∧ v ≤ q3 + 3/2 * (q3 - q1) + 1/20000)) ∧
    (∀ (f : EduFrame) (out : List EduCleanRow),
      cleanEducationData f = Except.ok out →
      (∀ lo hi, eduBounds (eduCoerced f) = some (lo, hi) →
        ∀ r ∈ out, lo ≤ r.value ∧ r.value ≤ hi) ∧
      out.length ≤ f.rows.length) := by
  refine ⟨?_, ?_, ?_⟩
  · intro f
    exact ⟨cleanData_num f, fun c _ => cleanNumCol_length c⟩
  · intro c q1 q3 h1 h3
    exact cleanNumCol_bounds c q1 q3 h1 h3
  · intro f out hout
    exact cleanEducationData_bounds f out hout

theorem C3_witness :
    quantile? (imputeCol [some 0, some 1, some 2, some 3]) 1 4 = some (3/4) ∧
    quantile? (imputeCol [some 0, some 1, some 2, some 3]) 3 4 = some (9/4) ∧
    (∀ v ∈ (cleanNumCol [some 0, some 1, some 2, some 3]).filterMap id,
      3/4 - 3/2 * (9/4 - 3/4) - 1/20000 ≤ v ∧ v ≤ 9/4 + 3/2 * (9/4 - 3/4) + 1/20000) := by
  refine ⟨by with_unfolding_all decide, by with_unfolding_all decide, ?_⟩
  exact (C3_amended.2.1 [some 0, some 1, some 2, some 3] (3/4) (9/4)
    (by with_unfolding_all decide) (by with_unfolding_all decide)).2

/-- C7 (counterexample): `connect_mongo` is not idempotent — a second call
on an already-connected state installs a fresh client, changing the
connection state. -/
theorem C7_counterexample :
    eduConnectMongo "education_db" (eduConnectMongo "education_db" s0) ≠
      eduConnectMongo "education_db" s0 := by decide

/-- C7 (amended): `connect_postgres` (ProgrammingForAI-taba copy) raises
exactly when a required configuration value is missing and is idempotent —
reconnecting from a connected state returns it unchanged.  `connect_mongo`
(education copy) never raises — every configuration value has a default —
but is not idempotent: each call replaces the client with a fresh one. -/
theorem C7_amended :
    (∀ (cfg : PGConfig) (s : ConnSt),
      (∃ e, pfaiConnectPostgres cfg s = Except.error e) ↔ pgMissing cfg = true) ∧
    (∀ (cfg : PGConfig) (s s' : ConnSt),
      pfaiConnectPostgres cfg s = Except.ok s' →
      pfaiConnectPostgres cfg s' = Except.ok s') ∧
    (∀ (dbName : String) (s : ConnSt), s.wf → eduConnectMongo dbName s ≠ s) := by
  refine ⟨?_, ?_, ?_⟩
  · intro cfg s
    constructor
    · rintro ⟨e, he⟩
      by_contra hm
      simp only [Bool.not_eq_true] at hm
      unfold pfaiConnectPostgres at he
      rw [hm] at he
      simp only [Bool.false_eq_true, if_false] at he
      by_cases hc : s.pgConn.isNone <;> simp [hc] at he
    · intro hm
      exact ⟨_, by unfold pfaiConnectPostgres; rw [if_pos hm]⟩
  · intro cfg s s' h
    unfold pfaiConnectPostgres at h ⊢
    by_cases hm : pgMissing cfg = true
    · rw [if_pos hm] at h
      exact absurd h (by simp)
    · rw [if_neg hm] at h ⊢
      by_cases hc : s.pgConn.isNone = true
      · rw [if_pos hc] at h
        injection h with h'
        rw [← h']
        simp
      · rw [if_neg hc] at h
        injection h with h'
        rw [← h', if_neg hc]
  · intro db s hwf heq
    have h1 : (eduConnectMongo db s).mongoClient = some s.nextId := rfl
    rw [heq] at h1
    exact absurd (hwf s.nextId h1) (lt_irrefl _)

theorem C7_witness :
    pfaiConnectPostgres cfg0 s0 = Except.ok s1 ∧
    pfaiConnectPostgres cfg0 s1 = Except.ok s1 ∧
    eduConnectMongo "education_db" s0 ≠ s0 := by
  refine ⟨by rfl, C7_amended.2.1 cfg0 s0 s1 (by rfl), ?_⟩
  exact C7_amended.2.2 "education_db" s0 (fun k hk => absurd hk (by simp [s0]))

/-- C8 (counterexample): on a frame whose first indicator column is the
constant `[1, 1, 1]`, the corresponding diagonal entry of the correlation
matrix is NaN (the divisor is zero), not `1.0`. -/
theorem C8_counterexample : entryAt (correlationMatrix cCols8) 0 0 ≠ some 1 := by
  have e : entryAt (correlationMatrix cCols8) 0 0 =
      corrEntry (cCols8.getD 0 []) (cCols8.getD 0 []) :=
    entryAt_corr cCols8 0 0 (by norm_num [cCols8]) (by norm_num [cCols8])
  rw [e]
  show corrEntry [1, 1, 1] [1, 1, 1] ≠ some 1
  unfold corrEntry
  rw [if_pos (Or.inl (show ssd [1, 1, 1] = 0 by
    norm_num [ssd, meanQ, List.sum_cons]))]
  simp

/-- C8 (amended): when every selected column has nonzero variance
(non-constant), the correlation matrix has `1.0` on the diagonal; and for
every numeric frame, constant columns included, the matrix is symmetric (a
NaN entry is matched by a NaN entry). -/
theorem C8_amended (cols : List (List ℚ)) :
    ((∀ c ∈ cols, ssd c ≠ 0) →
      ∀ i, i < cols.length → entryAt (correlationMatrix cols) i i = some 1) ∧
    (∀ i j, entryAt (correlationMatrix cols) i j =
      entryAt (correlationMatrix cols) j i) := by
  constructor
  · intro h i hi
    rw [entryAt_corr cols i i hi hi]
    exact corrEntry_self _ (h _ (getD_mem cols [] i hi))
  · intro i j
    by_cases hi : i < cols.length
    · by_cases hj : j < cols.length
      · rw [entryAt_corr cols i j hi hj, entryAt_corr cols j i hj hi,
          corrEntry_comm]
      · rw [entryAt_corr_none cols i j (Or.inr (le_of_not_lt hj)),
          entryAt_corr_none cols j i (Or.inl (le_of_not_lt hj))]
    · rw [entryAt_corr_none cols i j (Or.inl (le_of_not_lt hi)),
        entryAt_corr_none cols j i (Or.inr (le_of_not_lt hi))]

theorem C8_witness :
    (∀ c ∈ wCols8, ssd c ≠ 0) ∧
    entryAt (correlationMatrix wCols8) 0 0 = some 1 ∧
    entryAt (correlationMatrix cCols8) 0 1 = entryAt (correlationMatrix cCols8) 1 0 := by
  have hss : ∀ c ∈ wCols8, ssd c ≠ 0 := by
    intro c hc
    simp only [wCols8, List.mem_cons, List.not_mem_nil, or_false] at hc
    rcases hc with rfl | rfl <;> norm_num [ssd, meanQ, List.sum_cons]
  exact ⟨hss, (C8_amended wCols8).1 hss 0 (by norm_num [wCols8]),
    (C8_amended cCols8).2 0 1⟩

/-- C9 (confirmed): for `batch_size > 0` the relational save partitions the
frame into exactly `ceil(n / batch_size)` consecutive batches whose
in-order concatenation equals the input — every row is appended exactly
once. -/
theorem C9_theorem {α : Type} (rows : List α) (b : ℕ) (hb : 0 < b) :
    (batches rows b).flatten = rows ∧
      (batches rows b).length = (rows.length + b - 1) / b :=
  batches_spec rows b hb

theorem C9_witness :
    (batches [(10 : ℚ), 20, 30] 2).flatten = [10, 20, 30] ∧
      (batches [(10 : ℚ), 20, 30] 2).length = 2 := by
  have h := C9_theorem [(10 : ℚ), 20, 30] 2 (by decide)
  exact ⟨h.1, h.2.trans (by decide)⟩

/-- C10 (confirmed): the document save mutates its input — each dict
lacking `created_at` gets the timestamp appended before insertion, dicts
that already carry `created_at` are stored unchanged, and no other field
is ever added or modified. -/
theorem C10_theorem (store docs : List Doc) (now : ℕ) (d : Doc) (hd : d ∈ docs) :
    (saveToMongo store docs now).2 = docs.map (stampCreated now) ∧
    (saveToMongo store docs now).1 = store ++ docs.map (stampCreated now) ∧
    stampCreated now d ∈ (saveToMongo store docs now).2 ∧
    (hasField d "created_at" = false →
      stampCreated now d = d ++ [("created_at", MVal.time now)]) ∧
    (hasField d "created_at" = true → stampCreated now d = d) ∧
    (∀ k, k ≠ "created_at" → getField (stampCreated now d) k = getField d k) := by
  refine ⟨rfl, rfl, List.mem_map.mpr ⟨d, hd, rfl⟩, ?_, ?_, ?_⟩
  · intro h
    unfold stampCreated
    rw [if_neg (by simp [h])]
  · intro h
    unfold stampCreated
    rw [if_pos h]
  · intro k hk
    unfold stampCreated
    by_cases h : hasField d "created_at"
    · rw [if_pos h]
    · rw [if_neg h]
      exact getField_append_other d "created_at" k (MVal.time now) hk

theorem C10_witness :
    stampCreated 7 d0 = d0 ++ [("created_at", MVal.time 7)] ∧
    stampCreated 7 dC = dC ∧
    getField (stampCreated 7 d0) "value" = getField d0 "value" := by
  refine ⟨?_, ?_, ?_⟩
  · exact (C10_theorem [] [d0, dC] 7 d0 (by simp)).2.2.2.1 (by decide)
  · exact (C10_theorem [] [d0, dC] 7 dC (by simp)).2.2.2.2.1 (by decide)
  · exact (C10_theorem [] [d0, dC] 7 d0 (by simp)).2.2.2.2.2 "value" (by decide)

end Pipeline
